import Mathlib

/-!
Verification of the branching conversation model and leaf-path resolution of
the wgpt web UI (src/webui/src/components/ChatScreen.tsx), together with the
streaming message-assembly state machine and generation controller described
in the specification.

Conventions of the embedding:
* TS numbers (message ids) are `Int`; the sentinel "not found" id is `-1`.
* The TS `Map` built by inserting every message in list order is embedded as
  `nodeGet`: lookup returns the LAST list entry with the given id, matching
  `Map.set` overwrite semantics.
* TS `parent` may be null (`msg.parent ?? -1`), embedded as `Option Int`.
* `content` is `Option String`: committed nodes carry `some`, a pending
  message (TS type PendingMessage) may carry `none`.
* The unbounded `while` loops of `findLeafNode` and of the upward parent walk
  are embedded with explicit fuel `msgs.length + 1`, which bounds every
  terminating run of the TS loop (each step visits a distinct node of the
  map); on fuel exhaustion, reachable only on cyclic inputs where the TS
  loop never returns, the embedding yields the sentinel / the empty walk.
-/

/-- A message node of the conversation forest (TS `Message` / `PendingMessage`
from utils/types, as used by ChatScreen.tsx). -/
structure Message where
  id : Int
  type : String
  content : Option String
  parent : Option Int
  children : List Int
  deriving Repr, DecidableEq

/-- One displayed entry (TS `MessageDisplay`, ChatScreen.tsx lines 25-30). -/
structure MessageDisplay where
  msg : Message
  siblingLeafNodeIds : List Int
  siblingCurrIdx : Int
  isPending : Bool := false
  deriving Repr, DecidableEq

/-- Lookup in the node map built by `for (msg of msgs) nodeMap.set(msg.id, msg)`:
the last entry with a given id wins. -/
def nodeGet (msgs : List Message) (i : Int) : Option Message :=
  msgs.reverse.find? (fun m => m.id == i)

/-- JS `Array.prototype.indexOf`: first index of `x` in `l`, `-1` if absent. -/
def jsIndexOf : List Int → Int → Int
  | [], _ => -1
  | x :: xs, y =>
    if x = y then 0
    else
      let r := jsIndexOf xs y
      if r = -1 then -1 else r + 1

/-- The descent loop of `findLeafNode` (ChatScreen.tsx lines 56-63), on fuel. -/
def findLeafNodeAux (msgs : List Message) : Option Message → Nat → Int
  | none, _ => -1
  | some m, fuel =>
    if m.children = [] then m.id
    else
      match fuel with
      | 0 => -1
      | fuel + 1 => findLeafNodeAux msgs (nodeGet msgs (m.children.getLast?.getD (-1))) fuel

/-- TS `findLeafNode` (ChatScreen.tsx lines 56-63): from `msgId`, repeatedly
follow the last child until a childless node; `-1` when the id is absent. -/
def findLeafNode (msgs : List Message) (msgId : Int) : Int :=
  findLeafNodeAux msgs (nodeGet msgs msgId) (msgs.length + 1)

/-- The state of the `findLeafNode` while loop (ChatScreen.tsx lines 58-61)
after `n` iterations, as a step function on the loop variable `currNode`:
exit states — a failed lookup (`none`) or a childless node — are absorbing,
matching the `while (currNode)` condition and the `break`; a non-exit state
moves to the last child's node. Unlike `findLeafNodeAux`, this carries no
fuel, so non-termination of the source loop is visible as the absence of any
`n` whose state has exited. -/
def loopIter (msgs : List Message) : Nat → Option Message → Option Message
  | 0, o => o
  | _ + 1, none => none
  | n + 1, some m =>
    if m.children = [] then some m
    else loopIter msgs n (nodeGet msgs (m.children.getLast?.getD (-1)))

/-- Whether a loop state is an exit state of the source while loop: the
`while (currNode)` condition failed, or the `break` on a childless node
fired. -/
def loopExited : Option Message → Bool
  | none => true
  | some m => m.children.isEmpty

/-- The value `findLeafNode` returns from an exit state:
`currNode?.id ?? -1`. -/
def exitValue : Option Message → Int
  | none => -1
  | some m => m.id

/-- Upward walk via parent links, collecting visited nodes leaf-first; stops
when a parent id is not in the node map (broken chain). -/
def walkUp (msgs : List Message) : Option Message → Nat → List Message
  | none, _ => []
  | some _, 0 => []
  | some m, fuel + 1 => m :: walkUp msgs (nodeGet msgs (m.parent.getD (-1))) fuel

/-- Id of the first root-typed node of the forest, `-1` if there is none. -/
def rootId (msgs : List Message) : Int :=
  ((msgs.find? (fun m => m.type == "root")).map Message.id).getD (-1)

/-- Modelled from the spec: `StorageUtils.filterByLeafNodeId` is called by
`getListMessageDisplay` but its source is not part of this repository slice;
spec section 4.2 describes it: if the leaf id is the "none" sentinel (`-1`),
resolve it to the natural leaf by last-child descent from the root; then walk
upward from the resolved leaf via parent links and reverse to root-to-leaf
order, keeping a partial path when a parent id is missing; root-typed nodes
are kept only when `includeRoot` is set. -/
def filterByLeafNodeId (msgs : List Message) (leafNodeId : Int) (includeRoot : Bool) :
    List Message :=
  let resolvedId := if leafNodeId = -1 then findLeafNode msgs (rootId msgs) else leafNodeId
  let path := (walkUp msgs (nodeGet msgs resolvedId) (msgs.length + 1)).reverse
  if includeRoot then path else path.filter (fun m => m.type != "root")

/-- Body of the display loop of `getListMessageDisplay` (ChatScreen.tsx lines
64-75): skip a node whose parent id is not in the node map, skip root-typed
nodes, otherwise emit the display entry with sibling metadata. -/
def displayOf (msgs : List Message) (msg : Message) : Option MessageDisplay :=
  match nodeGet msgs (msg.parent.getD (-1)) with
  | none => none
  | some parentNode =>
    if msg.type = "root" then none
    else
      some { msg := msg
             siblingLeafNodeIds := parentNode.children.map (findLeafNode msgs)
             siblingCurrIdx := jsIndexOf parentNode.children msg.id
             isPending := false }

/-- TS `getListMessageDisplay` (ChatScreen.tsx lines 46-77). -/
def getListMessageDisplay (msgs : List Message) (leafNodeId : Int) : List MessageDisplay :=
  (filterByLeafNodeId msgs leafNodeId true).filterMap (displayOf msgs)

/-- One parent step in the node map. -/
def parentStep (msgs : List Message) (m : Message) : Option Message :=
  nodeGet msgs (m.parent.getD (-1))

/-- `k` parent steps in the node map. -/
def stepN (msgs : List Message) : Nat → Message → Option Message
  | 0, m => some m
  | n + 1, m => (parentStep msgs m).bind (stepN msgs n)

/-- `a` is a proper ancestor of `b`: reachable by a positive number of parent
steps in the node map. -/
def IsAncestorOf (msgs : List Message) (a b : Message) : Prop :=
  ∃ k, 0 < k ∧ stepN msgs k b = some a

/-- The store well-formedness used by the sibling-index guarantee: every node
whose parent id resolves in the node map is listed among the children of that
parent (spec section 3: nodes are only ever created as new leaves, linked into
the parent's `children`). -/
def ChildLinked (msgs : List Message) : Prop :=
  ∀ m ∈ msgs, ∀ p, nodeGet msgs (m.parent.getD (-1)) = some p → m.id ∈ p.children

/-- The concrete scenario forest of spec section 8:
root(0) -> user(1) -> assistant(2). -/
def root0 : Message :=
  { id := 0, type := "root", content := none, parent := none, children := [1] }

def user1 : Message :=
  { id := 1, type := "user", content := some "hi", parent := some 0, children := [2] }

def asst2 : Message :=
  { id := 2, type := "assistant", content := some "hello there", parent := some 1, children := [] }

def msgs0 : List Message := [root0, user1, asst2]

/-- A node whose parent id (99) is absent from the node map (broken chain). -/
def orphan1 : Message :=
  { id := 1, type := "user", content := some "x", parent := some 99, children := [] }

/-- A forest containing a broken-chain node, for the orphan-exclusion claim. -/
def msgsOrphan : List Message := [root0, orphan1]

/-- Two nodes that are each the other's only (hence last) child: a cyclic
node map on which the descent loop of the source never exits. -/
def cyc1 : Message :=
  { id := 1, type := "user", content := some "a", parent := some 2, children := [2] }

def cyc2 : Message :=
  { id := 2, type := "assistant", content := some "b", parent := some 1, children := [1] }

def msgsCyc : List Message := [cyc1, cyc2]

/-- Decidable form of `ChildLinked`. -/
def childLinkedB (msgs : List Message) : Bool :=
  msgs.all fun m =>
    match nodeGet msgs (m.parent.getD (-1)) with
    | none => true
    | some p => p.children.contains m.id

/-- The forest produced by linking a new leaf under `parentId`: the parent
gains the new id at the end of its `children`, every other node is kept
unchanged, and the new node is stored with its parent back-link and no
children. -/
def appendedForest (msgs : List Message) (parentId : Int) (newNode : Message) : List Message :=
  (msgs.map fun m =>
    if m.id = parentId then { m with children := m.children ++ [newNode.id] } else m)
    ++ [{ newNode with parent := some parentId, children := [] }]

/-- Modelled from the spec: `append(conversationId, parentId, node) -> id` of
the Message Store (section 4.1, source outside this repository slice); fails
with InvalidParent (`none`) when `parentId` does not exist in the
conversation. -/
def appendNode (msgs : List Message) (parentId : Int) (newNode : Message) :
    Option (List Message) :=
  match nodeGet msgs parentId with
  | none => none
  | some _ => some (appendedForest msgs parentId newNode)

/-- A fresh user-turn node, before linking. -/
def mkUserNode (i : Int) (text : String) : Message :=
  { id := i, type := "user", content := some text, parent := none, children := [] }

/-- A fresh assistant-turn node, before linking. -/
def mkAsstNode (i : Int) (text : String) : Message :=
  { id := i, type := "assistant", content := some text, parent := none, children := [] }

/-- Modelled from the spec: `replaceMessageAndGenerate`, called by
`handleEditMessage` and `handleRegenerateMessage` (ChatScreen.tsx lines
144-172) but implemented outside this repository slice. Spec section 4.3:
edit (content present) appends the new user content as a sibling of the
original message under its parent, then runs an assistant generation under
that new node, whose commit appends the streamed content there; regenerate
(content null) runs an assistant generation directly under the original
parent, committing the streamed content as a new sibling; no history is
discarded. -/
def replaceMessageAndGenerate (msgs : List Message) (parentId : Int)
    (content : Option String) (newId asstId : Int) (streamed : String) :
    Option (List Message) :=
  match content with
  | some text =>
    (appendNode msgs parentId (mkUserNode newId text)).bind fun ms =>
      appendNode ms newId (mkAsstNode asstId streamed)
  | none => appendNode msgs parentId (mkAsstNode asstId streamed)

/-- Stream-level and controller-level errors (spec section 7). -/
inductive GenError
  | AlreadyGenerating
  | NetworkError
  | InvalidResponse
  | Aborted
  deriving Repr, DecidableEq

/-- The in-flight pending node of a streaming assembler. -/
structure PendingNode where
  id : Int
  content : String
  deriving Repr, DecidableEq

/-- Modelled from the spec: Generation Controller state (section 4.4) — the
active (Streaming-state) assemblers, keyed by conversation id. -/
structure CtrlState where
  active : List (String × PendingNode)
  deriving Repr, DecidableEq

/-- `isGenerating(conversationId)` of the Generation Controller (section
4.4). -/
def isGenerating (st : CtrlState) (convId : String) : Bool :=
  (st.active.find? (fun e => e.1 == convId)).isSome

/-- Result of a `start` request. -/
inductive StartResult
  | ok (pendingId : Int)
  | error (e : GenError)
  deriving Repr, DecidableEq

/-- Outcome of a `start` request: the controller state afterwards, the pending
id or error, and the user notification raised, if any. -/
structure StartOutcome where
  st : CtrlState
  result : StartResult
  notice : Option String
  deriving Repr, DecidableEq

/-- Modelled from the spec: `start(conversationId, ...) -> pendingId` of the
Streaming Assembler gated by the Generation Controller (sections 4.3, 4.4, 7,
source outside this repository slice; ChatScreen.tsx line 120 shows the
matching guard on the caller side): a second start for a conversation id with
an active stream is rejected with AlreadyGenerating — no queuing, no
interleaving, no state change — and the user is notified; otherwise a fresh
Streaming assembler with empty pending content is registered. -/
def startGeneration (st : CtrlState) (convId : String) (pendingId : Int) : StartOutcome :=
  if isGenerating st convId = true then
    { st := st
      result := .error .AlreadyGenerating
      notice := some "already generating, stop it first" }
  else
    { st := { active := (convId, { id := pendingId, content := "" }) :: st.active }
      result := .ok pendingId
      notice := none }

/-- At most one active assembler per conversation id: the keys of the active
map are pairwise distinct. -/
def KeysNodup (st : CtrlState) : Prop :=
  (st.active.map Prod.fst).Nodup

/-- Folding one incremental text chunk into the pending content (append
semantics, spec section 4.3). -/
def receiveChunk (p : PendingNode) (delta : String) : PendingNode :=
  { p with content := p.content ++ delta }

/-- Final states of one streaming generation (spec section 4.3). -/
inductive FinalState
  | Committed
  | Cancelled
  | Failed (e : GenError)
  deriving Repr, DecidableEq

/-- Transport-level events consumed by one streaming assembler. -/
inductive StreamEvent
  | chunk (delta : String)
  | done
  | cancelEv
  | errorEv (e : GenError)
  deriving Repr, DecidableEq

/-- State of one assembler run: the pending node under construction, the
store, and the final state once the run finished (`none` while streaming). -/
structure AsmRun where
  pending : PendingNode
  msgs : List Message
  final : Option FinalState
  deriving Repr, DecidableEq

/-- Modelled from the spec: one step of the Streaming Assembler state machine
(section 4.3, source outside this repository slice). A chunk appends its
delta to the pending content; `done` commits the pending node into the store
under `parentId`; cancel aborts the transport but still commits the partially
built content (a variant of commit, not a discard); a transport error
discards the pending node, leaving the store untouched. Events arriving after
a final state are ignored. -/
def stepAsm (parentId : Int) (st : AsmRun) (ev : StreamEvent) : AsmRun :=
  match st.final with
  | some _ => st
  | none =>
    match ev with
    | .chunk d => { st with pending := receiveChunk st.pending d }
    | .done =>
      { st with
        msgs := (appendNode st.msgs parentId
          (mkAsstNode st.pending.id st.pending.content)).getD st.msgs
        final := some .Committed }
    | .cancelEv =>
      { st with
        msgs := (appendNode st.msgs parentId
          (mkAsstNode st.pending.id st.pending.content)).getD st.msgs
        final := some .Cancelled }
    | .errorEv e => { st with final := some (.Failed e) }

/-- A full assembler run over a list of transport events. -/
def runAsm (parentId : Int) (st : AsmRun) (evs : List StreamEvent) : AsmRun :=
  evs.foldl (stepAsm parentId) st

/-- TS `pendingMsgDisplay` (ChatScreen.tsx lines 185-195): when a pending
message exists and the last committed display entry does not already carry
its id, exactly one extra entry with empty sibling metadata and the pending
flag set. -/
def pendingMsgDisplay (messages : List MessageDisplay) (pendingMsg : Option Message) :
    List MessageDisplay :=
  match pendingMsg with
  | none => []
  | some pm =>
    if (messages.getLast?).map (fun d => d.msg.id) ≠ some pm.id then
      [{ msg := pm, siblingLeafNodeIds := [], siblingCurrIdx := 0, isPending := true }]
    else []

/-- The rendered list `[...messages, ...pendingMsgDisplay]` (ChatScreen.tsx
line 225). -/
def renderedMessages (messages : List MessageDisplay) (pendingMsg : Option Message) :
    List MessageDisplay :=
  messages ++ pendingMsgDisplay messages pendingMsg

/-- JS `String.prototype.trim`: drop whitespace from both ends, embedded on
the character list so that it evaluates by kernel reduction. -/
def jsTrim (s : String) : String :=
  String.mk (((s.data.dropWhile Char.isWhitespace).reverse.dropWhile
    Char.isWhitespace).reverse)

/-- UI state touched by `sendNewMessage` (ChatScreen.tsx lines 118-140): the
textarea draft, the extra-context attachment items (contents opaque), and the
current leaf id. -/
structure UiState where
  draftText : String
  extraItems : List String
  currNodeId : Int
  deriving Repr, DecidableEq

/-- Outcome of `sendNewMessage`: the UI state afterwards, the content and
attachment items passed to the external `sendMessage` call (`none` when the
guard refused), and the toast error raised, if any. -/
structure SendOutcome where
  st : UiState
  sent : Option (String × List String)
  toastError : Option String
  deriving Repr, DecidableEq

/-- TS `sendNewMessage` (ChatScreen.tsx lines 118-140). `generating` embeds
the external `isGenerating(currConvId)` and `sendOk` the boolean result of
the external `sendMessage` call. The draft is captured, cleared before the
send (together with resetting the current leaf id), restored when the send
reports failure, and the extra-context items are cleared after the attempt
regardless of its outcome. -/
def sendNewMessage (st : UiState) (generating : Bool) (sendOk : Bool) : SendOutcome :=
  let lastInpMsg := st.draftText
  if (jsTrim lastInpMsg).length == 0 || generating then
    { st := st, sent := none, toastError := some "Please enter a message" }
  else
    let st1 : UiState := { st with draftText := "", currNodeId := -1 }
    let st2 : UiState := if sendOk then st1 else { st1 with draftText := lastInpMsg }
    { st := { st2 with extraItems := [] }
      sent := some (lastInpMsg, st.extraItems)
      toastError := none }

/-- A controller state with one active stream, for conversation "conv1". -/
def ctrl1 : CtrlState := { active := [("conv1", { id := 7, content := "x" })] }

/-- An assembler run start state: pending node 3 with empty content, over the
scenario forest, still streaming. -/
def run0 : AsmRun := { pending := { id := 3, content := "" }, msgs := msgs0, final := none }

/-- The committed displays of the scenario forest, for the pending-display
claim. -/
def msgsD0 : List MessageDisplay :=
  [{ msg := user1, siblingLeafNodeIds := [2], siblingCurrIdx := 0, isPending := false },
   { msg := asst2, siblingLeafNodeIds := [2], siblingCurrIdx := 0, isPending := false }]

/-- A pending assistant message with a fresh id 9. -/
def pend9 : Message :=
  { id := 9, type := "assistant", content := none, parent := some 2, children := [] }

/-- A UI state with a non-blank draft and one attachment item. -/
def ui0 : UiState := { draftText := "hello", extraItems := ["a.txt"], currNodeId := 5 }

theorem nodeGet_mem {msgs : List Message} {i : Int} {m : Message}
    (h : nodeGet msgs i = some m) : m ∈ msgs :=
  List.mem_reverse.mp (List.mem_of_find?_eq_some h)

theorem nodeGet_id {msgs : List Message} {i : Int} {m : Message}
    (h : nodeGet msgs i = some m) : m.id = i := by
  have := List.find?_some h
  simpa using this

theorem childLinked_of_B {msgs : List Message} (h : childLinkedB msgs = true) :
    ChildLinked msgs := by
  intro m hm p hp
  have hall := List.all_eq_true.mp h m hm
  rw [hp] at hall
  simpa using hall

theorem walkUp_subset (msgs : List Message) :
    ∀ (fuel : Nat) (o : Option Message), (∀ m, o = some m → m ∈ msgs) →
      ∀ x ∈ walkUp msgs o fuel, x ∈ msgs := by
  intro fuel
  induction fuel with
  | zero =>
    intro o ho x hx
    cases o <;> simp [walkUp] at hx
  | succ fuel ih =>
    intro o ho x hx
    cases o with
    | none => simp [walkUp] at hx
    | some m =>
      simp only [walkUp, List.mem_cons] at hx
      rcases hx with rfl | hx
      · exact ho x rfl
      · exact ih _ (fun m' hm' => nodeGet_mem hm') x hx

theorem walkUp_stepN (msgs : List Message) :
    ∀ (fuel : Nat) (m x : Message), x ∈ walkUp msgs (some m) fuel →
      ∃ k, stepN msgs k m = some x := by
  intro fuel
  induction fuel with
  | zero => intro m x hx; simp [walkUp] at hx
  | succ fuel ih =>
    intro m x hx
    simp only [walkUp, List.mem_cons] at hx
    rcases hx with rfl | hx
    · exact ⟨0, rfl⟩
    · cases e : nodeGet msgs (m.parent.getD (-1)) with
      | none => rw [e] at hx; simp [walkUp] at hx
      | some m' =>
        rw [e] at hx
        obtain ⟨k, hk⟩ := ih m' x hx
        exact ⟨k + 1, by simp [stepN, parentStep, e, hk]⟩

theorem walkUp_pairwise (msgs : List Message) :
    ∀ (fuel : Nat) (o : Option Message),
      List.Pairwise (fun x y => IsAncestorOf msgs y x) (walkUp msgs o fuel) := by
  intro fuel
  induction fuel with
  | zero => intro o; cases o <;> simp [walkUp]
  | succ fuel ih =>
    intro o
    cases o with
    | none => simp [walkUp]
    | some m =>
      simp only [walkUp, List.pairwise_cons]
      refine ⟨?_, ih _⟩
      intro y hy
      cases e : nodeGet msgs (m.parent.getD (-1)) with
      | none => rw [e] at hy; simp [walkUp] at hy
      | some m' =>
        rw [e] at hy
        obtain ⟨k, hk⟩ := walkUp_stepN msgs fuel m' y hy
        exact ⟨k + 1, Nat.succ_pos k, by simp [stepN, parentStep, e, hk]⟩

theorem loopIter_stable (msgs : List Message) (b : Nat) (o : Option Message)
    (h : loopExited o = true) : loopIter msgs b o = o := by
  cases o with
  | none => cases b <;> rfl
  | some m =>
    have hc : m.children = [] := by simpa [loopExited, List.isEmpty_iff] using h
    cases b with
    | zero => rfl
    | succ b => simp [loopIter, hc]

theorem loopIter_add (msgs : List Message) (a b : Nat) (o : Option Message) :
    loopIter msgs (a + b) o = loopIter msgs b (loopIter msgs a o) := by
  induction a generalizing o with
  | zero =>
    rw [Nat.zero_add]
    simp [loopIter]
  | succ a ih =>
    cases o with
    | none =>
      have hn : ∀ k, loopIter msgs k (none : Option Message) = none := by
        intro k; cases k <;> rfl
      rw [hn, hn, hn]
    | some m =>
      by_cases hc : m.children = []
      · have hm : ∀ k, loopIter msgs k (some m) = some m := fun k =>
          loopIter_stable msgs k (some m) (by simp [loopExited, hc])
        rw [hm, hm, hm]
      · have hst : a + 1 + b = (a + b) + 1 := by omega
        rw [hst]
        show loopIter msgs ((a + b) + 1) (some m) = _
        rw [show ∀ k, loopIter msgs (k + 1) (some m)
            = loopIter msgs k (nodeGet msgs (m.children.getLast?.getD (-1))) from
          fun k => by simp [loopIter, hc]]
        rw [ih, show loopIter msgs (a + 1) (some m)
            = loopIter msgs a (nodeGet msgs (m.children.getLast?.getD (-1))) from by
          simp [loopIter, hc]]

theorem loopIter_mem (msgs : List Message) :
    ∀ (n : Nat) (o : Option Message), (∀ m, o = some m → m ∈ msgs) →
      ∀ m, loopIter msgs n o = some m → m ∈ msgs := by
  intro n
  induction n with
  | zero => intro o ho m hm; exact ho m hm
  | succ n ih =>
    intro o ho m hm
    cases o with
    | none => exact Option.noConfusion hm
    | some m0 =>
      by_cases hc : m0.children = []
      · rw [show loopIter msgs (n + 1) (some m0) = some m0 from by simp [loopIter, hc]] at hm
        obtain rfl : m0 = m := Option.some_injective _ hm
        exact ho m0 rfl
      · rw [show loopIter msgs (n + 1) (some m0)
            = loopIter msgs n (nodeGet msgs (m0.children.getLast?.getD (-1))) from by
          simp [loopIter, hc]] at hm
        exact ih _ (fun m' hm' => nodeGet_mem hm') m hm

theorem findLeafNodeAux_loopIter (msgs : List Message) :
    ∀ (n fuel : Nat) (o : Option Message), n ≤ fuel →
      loopExited (loopIter msgs n o) = true →
      findLeafNodeAux msgs o fuel = exitValue (loopIter msgs n o) := by
  intro n
  induction n with
  | zero =>
    intro fuel o _ hex
    cases o with
    | none => simp [findLeafNodeAux, loopIter, exitValue]
    | some m =>
      have hc : m.children = [] := by
        simpa [loopIter, loopExited, List.isEmpty_iff] using hex
      cases fuel <;> simp [findLeafNodeAux, loopIter, hc, exitValue]
  | succ n ih =>
    intro fuel o hle hex
    cases fuel with
    | zero => omega
    | succ f =>
      cases o with
      | none => rfl
      | some m =>
        by_cases hc : m.children = []
        · rw [show loopIter msgs (n + 1) (some m) = some m from by simp [loopIter, hc]]
          simp [findLeafNodeAux, hc, exitValue]
        · rw [show loopIter msgs (n + 1) (some m)
              = loopIter msgs n (nodeGet msgs (m.children.getLast?.getD (-1))) from by
            simp [loopIter, hc]] at hex ⊢
          rw [show findLeafNodeAux msgs (some m) (f + 1)
              = findLeafNodeAux msgs (nodeGet msgs (m.children.getLast?.getD (-1))) f from by
            simp [findLeafNodeAux, hc]]
          exact ih f _ (by omega) hex

theorem loopIter_shrink (msgs : List Message) (o : Option Message)
    (ho : ∀ m, o = some m → m ∈ msgs) :
    ∀ n, loopExited (loopIter msgs n o) = true →
      ∃ k, k ≤ msgs.length ∧ loopIter msgs k o = loopIter msgs n o := by
  intro n
  induction n using Nat.strong_induction_on with
  | _ n ih =>
    intro hex
    by_cases hn : n ≤ msgs.length
    · exact ⟨n, hn, rfl⟩
    · push_neg at hn
      by_cases hbelow : ∃ k, k ≤ msgs.length ∧ loopExited (loopIter msgs k o) = true
      · obtain ⟨k, hkL, hkex⟩ := hbelow
        refine ⟨k, hkL, ?_⟩
        have hcomp : loopIter msgs n o = loopIter msgs (n - k) (loopIter msgs k o) := by
          rw [← loopIter_add]
          congr 1
          omega
        rw [hcomp, loopIter_stable msgs (n - k) _ hkex]
      · push_neg at hbelow
        have key : ∀ i j, i < j → j ≤ msgs.length → loopIter msgs i o = loopIter msgs j o →
            ∃ k, k ≤ msgs.length ∧ loopIter msgs k o = loopIter msgs n o := by
          intro i j hij hjL hval
          have h1 : loopIter msgs n o = loopIter msgs (i + (n - j)) o := by
            have e1 : loopIter msgs n o = loopIter msgs (n - j) (loopIter msgs j o) := by
              rw [← loopIter_add]
              congr 1
              omega
            have e2 : loopIter msgs (i + (n - j)) o
                = loopIter msgs (n - j) (loopIter msgs i o) := loopIter_add msgs i (n - j) o
            rw [e1, ← hval, ← e2]
          have hlt : i + (n - j) < n := by omega
          have hex' : loopExited (loopIter msgs (i + (n - j)) o) = true := by
            rw [← h1]
            exact hex
          obtain ⟨k, hkL, hkeq⟩ := ih _ hlt hex'
          exact ⟨k, hkL, hkeq.trans h1.symm⟩
        have hmaps : ∀ k ∈ Finset.range (msgs.length + 1),
            loopIter msgs k o ∈ (msgs.map some).toFinset := by
          intro k hk
          have hkL : k ≤ msgs.length := Nat.lt_succ_iff.mp (Finset.mem_range.mp hk)
          have hnex := hbelow k hkL
          cases e : loopIter msgs k o with
          | none => rw [e] at hnex; exact absurd rfl hnex
          | some m =>
            have hm : m ∈ msgs := loopIter_mem msgs k o ho m e
            rw [List.mem_toFinset, List.mem_map]
            exact ⟨m, hm, rfl⟩
        have hcard : (msgs.map some).toFinset.card < (Finset.range (msgs.length + 1)).card := by
          have h1 : (msgs.map some).toFinset.card ≤ (msgs.map some).length :=
            List.toFinset_card_le _
          rw [List.length_map] at h1
          rw [Finset.card_range]
          omega
        obtain ⟨i, hi, j, hj, hij, hval⟩ :=
          Finset.exists_ne_map_eq_of_card_lt_of_maps_to hcard hmaps
        have hiL : i ≤ msgs.length := Nat.lt_succ_iff.mp (Finset.mem_range.mp hi)
        have hjL : j ≤ msgs.length := Nat.lt_succ_iff.mp (Finset.mem_range.mp hj)
        rcases lt_or_gt_of_ne hij with h | h
        · exact key i j h hjL hval
        · exact key j i h hiL hval.symm

theorem displayOf_eq_some {msgs : List Message} {m : Message} {d : MessageDisplay}
    (h : displayOf msgs m = some d) :
    ∃ p, nodeGet msgs (m.parent.getD (-1)) = some p ∧ m.type ≠ "root" ∧
      d = { msg := m
            siblingLeafNodeIds := p.children.map (findLeafNode msgs)
            siblingCurrIdx := jsIndexOf p.children m.id
            isPending := false } := by
  unfold displayOf at h
  cases e : nodeGet msgs (m.parent.getD (-1)) with
  | none => rw [e] at h; exact absurd h (by simp)
  | some p =>
    rw [e] at h
    by_cases ht : m.type = "root"
    · simp [ht] at h
    · simp only [if_neg ht] at h
      exact ⟨p, rfl, ht, (Option.some_injective _ h).symm⟩

theorem jsIndexOf_bounds {l : List Int} {x : Int} (hx : x ∈ l) :
    0 ≤ jsIndexOf l x ∧ jsIndexOf l x < (l.length : Int) := by
  induction l with
  | nil => simp at hx
  | cons a l ih =>
    simp only [jsIndexOf, List.length_cons]
    by_cases hax : a = x
    · simp only [if_pos hax]
      refine ⟨le_refl 0, ?_⟩
      positivity
    · rcases List.mem_cons.mp hx with h | h
      · exact absurd h.symm hax
      · obtain ⟨h0, h1⟩ := ih h
        have hne : jsIndexOf l x ≠ -1 := by omega
        simp only [if_neg hax, if_neg hne]
        push_cast
        omega

theorem filterByLeafNodeId_true_eq (msgs : List Message) (leafNodeId : Int) :
    filterByLeafNodeId msgs leafNodeId true =
      (walkUp msgs
        (nodeGet msgs (if leafNodeId = -1 then findLeafNode msgs (rootId msgs) else leafNodeId))
        (msgs.length + 1)).reverse := rfl

theorem filterByLeafNodeId_subset (msgs : List Message) (leafNodeId : Int) (b : Bool) :
    ∀ x ∈ filterByLeafNodeId msgs leafNodeId b, x ∈ msgs := by
  intro x hx
  unfold filterByLeafNodeId at hx
  have hmem : ∀ {y : Message},
      y ∈ (walkUp msgs
        (nodeGet msgs (if leafNodeId = -1 then findLeafNode msgs (rootId msgs) else leafNodeId))
        (msgs.length + 1)).reverse → y ∈ msgs := by
    intro y hy
    exact walkUp_subset msgs _ _ (fun m hm => nodeGet_mem hm) y (List.mem_reverse.mp hy)
  cases b with
  | true => exact hmem hx
  | false =>
    simp only [Bool.false_eq_true, if_false] at hx
    exact hmem (List.mem_of_mem_filter hx)

theorem filterMap_displayOf_map_msg (msgs : List Message) :
    ∀ l : List Message,
      (l.filterMap (displayOf msgs)).map MessageDisplay.msg =
        l.filter (fun m => (nodeGet msgs (m.parent.getD (-1))).isSome && (m.type != "root")) := by
  intro l
  induction l with
  | nil => rfl
  | cons m l ih =>
    rw [List.filterMap_cons, List.filter_cons]
    cases e : nodeGet msgs (m.parent.getD (-1)) with
    | none => simp [displayOf, e, ih]
    | some p =>
      by_cases ht : m.type = "root"
      · simp [displayOf, e, ht, ih]
      · simp [displayOf, e, ht, bne_iff_ne, ih]

/-- C1: for every forest of messages and every leaf id, `getListMessageDisplay`
returns the displayed nodes solely in ancestor (root-to-leaf) order — every
earlier displayed node is a proper ancestor, via parent links of the node map,
of every later one — and no node of type root appears in the returned
sequence. -/
theorem getListMessageDisplay_ancestor_order_no_root (msgs : List Message) (leafNodeId : Int) :
    (∀ d ∈ getListMessageDisplay msgs leafNodeId, d.msg.type ≠ "root") ∧
    List.Pairwise (fun d d' => IsAncestorOf msgs d.msg d'.msg)
      (getListMessageDisplay msgs leafNodeId) := by
  constructor
  · intro d hd
    obtain ⟨m, hm, hsome⟩ := List.mem_filterMap.mp hd
    obtain ⟨p, hp, ht, rfl⟩ := displayOf_eq_some hsome
    exact ht
  · have hpath : List.Pairwise (fun a b => IsAncestorOf msgs a b)
        (filterByLeafNodeId msgs leafNodeId true) := by
      rw [filterByLeafNodeId_true_eq, List.pairwise_reverse]
      exact walkUp_pairwise msgs _ _
    unfold getListMessageDisplay
    rw [List.pairwise_filterMap]
    refine hpath.imp ?_
    intro a b hab d hd d' hd'
    obtain ⟨p, hp, ht, rfl⟩ := displayOf_eq_some (Option.mem_def.mp hd)
    obtain ⟨p', hp', ht', rfl⟩ := displayOf_eq_some (Option.mem_def.mp hd')
    exact hab

/-- C2: in a well-formed store (every node is listed among the children of the
node its parent id resolves to), every displayed node whose parent exists in
the node map has `siblingLeafNodeIds` equal, in child order, to the natural
leaf under each of the parent's children, hence of the same length as the
parent's `children`, and `siblingCurrIdx` equal to the index of the node's id
within the parent's `children` and a valid index into `siblingLeafNodeIds`. -/
theorem getListMessageDisplay_sibling_metadata (msgs : List Message) (leafNodeId : Int)
    (hwf : ChildLinked msgs) :
    ∀ d ∈ getListMessageDisplay msgs leafNodeId,
      ∀ p, nodeGet msgs (d.msg.parent.getD (-1)) = some p →
        d.siblingLeafNodeIds = p.children.map (findLeafNode msgs) ∧
        d.siblingLeafNodeIds.length = p.children.length ∧
        d.siblingCurrIdx = jsIndexOf p.children d.msg.id ∧
        0 ≤ d.siblingCurrIdx ∧ d.siblingCurrIdx < (d.siblingLeafNodeIds.length : Int) := by
  intro d hd p hp
  obtain ⟨m, hm, hsome⟩ := List.mem_filterMap.mp hd
  obtain ⟨p0, hp0, ht, rfl⟩ := displayOf_eq_some hsome
  have hpp : p0 = p := Option.some_injective _ (hp0.symm.trans hp)
  subst hpp
  have hmmem : m ∈ msgs := filterByLeafNodeId_subset msgs leafNodeId true m hm
  have hchild : m.id ∈ p0.children := hwf m hmmem p0 hp0
  obtain ⟨hlo, hhi⟩ := jsIndexOf_bounds hchild
  refine ⟨rfl, by simp, rfl, hlo, ?_⟩
  simpa using hhi

/-- C2 witness: the concrete scenario forest satisfies the hypotheses and the
sibling index of the first displayed entry is a valid index. -/
theorem getListMessageDisplay_sibling_metadata_witness :
    (0 : Int) ≤ 0 ∧ (0 : Int) < (([2] : List Int).length : Int) := by
  have h := getListMessageDisplay_sibling_metadata msgs0 2 (childLinked_of_B (by decide))
    { msg := user1, siblingLeafNodeIds := [2], siblingCurrIdx := 0, isPending := false }
    (by decide) root0 (by decide)
  exact ⟨h.2.2.2.1, h.2.2.2.2⟩

/-- C6: a node whose parent id is not found in the node map is silently
excluded from the resolved path: the displayed messages are exactly the nodes
of the (partial) path whose parent id resolves and whose type is not root, and
no broken-chain node ever occurs among the displayed entries; the function is
total, so no error is raised to the caller. -/
theorem getListMessageDisplay_drops_orphans (msgs : List Message) (leafNodeId : Int) :
    (getListMessageDisplay msgs leafNodeId).map MessageDisplay.msg =
      (filterByLeafNodeId msgs leafNodeId true).filter
        (fun m => (nodeGet msgs (m.parent.getD (-1))).isSome && (m.type != "root")) ∧
    ∀ m, nodeGet msgs (m.parent.getD (-1)) = none →
      ∀ d ∈ getListMessageDisplay msgs leafNodeId, d.msg ≠ m := by
  constructor
  · exact filterMap_displayOf_map_msg msgs _
  · intro m hnone d hd hdm
    obtain ⟨m', hm', hsome⟩ := List.mem_filterMap.mp hd
    obtain ⟨p, hp, ht, rfl⟩ := displayOf_eq_some hsome
    rw [show m' = m from hdm] at hp
    rw [hnone] at hp
    exact Option.noConfusion hp

/-- C6 witness: on a concrete forest whose only non-root candidate node has a
missing parent id, the resolver returns the partial (here empty) display. -/
theorem getListMessageDisplay_drops_orphans_witness :
    (getListMessageDisplay msgsOrphan 1).map MessageDisplay.msg = [] :=
  ((getListMessageDisplay_drops_orphans msgsOrphan 1).1).trans (by decide)

/-- C7 counterexample: on the node map where nodes 1 and 2 are each the
other's only (hence last) child, the descent loop of `findLeafNode`
(ChatScreen.tsx lines 58-61) alternates between the two nodes forever — after
every number of iterations it is still at node 1 or node 2, both with
nonempty children and succeeding lookups — so no iteration count reaches an
exit state and the source function never returns an id on this input,
refuting totality for every node map. -/
theorem findLeafNode_cycle_counterexample :
    (∀ n, loopIter msgsCyc n (nodeGet msgsCyc 1) = some cyc1 ∨
      loopIter msgsCyc n (nodeGet msgsCyc 1) = some cyc2) ∧
    ¬ ∃ n, loopExited (loopIter msgsCyc n (nodeGet msgsCyc 1)) = true := by
  have hstates : ∀ n, loopIter msgsCyc n (nodeGet msgsCyc 1) = some cyc1 ∨
      loopIter msgsCyc n (nodeGet msgsCyc 1) = some cyc2 := by
    intro n
    induction n with
    | zero => exact Or.inl (by decide)
    | succ n ih =>
      have hstep : loopIter msgsCyc (n + 1) (nodeGet msgsCyc 1)
          = loopIter msgsCyc 1 (loopIter msgsCyc n (nodeGet msgsCyc 1)) :=
        loopIter_add msgsCyc n 1 (nodeGet msgsCyc 1)
      rcases ih with h | h
      · rw [hstep, h]
        exact Or.inr (by decide)
      · rw [hstep, h]
        exact Or.inl (by decide)
  refine ⟨hstates, ?_⟩
  rintro ⟨n, hex⟩
  rcases hstates n with h | h <;> rw [h] at hex <;> exact absurd hex (by decide)

/-- C7 amended: `findLeafNode` never throws; on an id not present in the node
map it returns the sentinel `-1` at once; and whenever the descent loop of
the source exits — after any number of iterations — `findLeafNode` returns
exactly the loop's exit value, which is the sentinel `-1` or the id of a node
of the map. (An exiting run cannot revisit a state, so its exit step is at
most `msgs.length` and the fuel of the embedding covers it; on cyclic
last-child links the loop never exits.) -/
theorem findLeafNode_exit_sentinel (msgs : List Message) (msgId : Int) :
    (nodeGet msgs msgId = none → findLeafNode msgs msgId = -1) ∧
    (∀ n, loopExited (loopIter msgs n (nodeGet msgs msgId)) = true →
      findLeafNode msgs msgId = exitValue (loopIter msgs n (nodeGet msgs msgId)) ∧
      (exitValue (loopIter msgs n (nodeGet msgs msgId)) = -1 ∨
        ∃ m ∈ msgs, exitValue (loopIter msgs n (nodeGet msgs msgId)) = m.id)) := by
  constructor
  · intro h
    unfold findLeafNode
    rw [h]
    rfl
  · intro n hex
    obtain ⟨k, hkL, hkeq⟩ :=
      loopIter_shrink msgs (nodeGet msgs msgId) (fun m hm => nodeGet_mem hm) n hex
    have hexk : loopExited (loopIter msgs k (nodeGet msgs msgId)) = true := by
      rw [hkeq]
      exact hex
    have hbridge := findLeafNodeAux_loopIter msgs k (msgs.length + 1)
      (nodeGet msgs msgId) (by omega) hexk
    constructor
    · unfold findLeafNode
      rw [hbridge, hkeq]
    · cases e : loopIter msgs n (nodeGet msgs msgId) with
      | none => exact Or.inl rfl
      | some m =>
        have hm : m ∈ msgs :=
          loopIter_mem msgs n _ (fun m' hm' => nodeGet_mem hm') m e
        exact Or.inr ⟨m, hm, rfl⟩

/-- C7 witness: in the scenario forest the loop from the absent id 99 exits
at once with the sentinel -1, and from id 2 it exits immediately at the
childless node 2, whose id findLeafNode returns. -/
theorem findLeafNode_exit_sentinel_witness :
    findLeafNode msgs0 99 = -1 ∧ findLeafNode msgs0 2 = 2 := by
  refine ⟨(findLeafNode_exit_sentinel msgs0 99).1 (by decide), ?_⟩
  have h := ((findLeafNode_exit_sentinel msgs0 2).2 0 (by decide)).1
  rw [h]
  decide

/-- C8 counterexample: in the concrete scenario forest, the displayed entries
do not carry an empty sibling list (each sibling list is `[2]`, which also
cannot have length 1 while being empty), refuting the claim as stated. -/
theorem scenario_empty_sibling_counterexample :
    ¬ ∀ d ∈ getListMessageDisplay msgs0 2,
        d.siblingLeafNodeIds = [] ∧ d.siblingLeafNodeIds.length = 1 ∧
        d.siblingCurrIdx = 0 := by
  decide

/-- C8 amended: resolving leaf id 2 in the scenario forest yields exactly
`[user#1, assistant#2]`, each entry carrying the sibling leaf list `[2]` of
length 1 (the single child) and `siblingCurrIdx = 0`. -/
theorem scenario_resolve_leaf_two :
    getListMessageDisplay msgs0 2 =
      [{ msg := user1, siblingLeafNodeIds := [2], siblingCurrIdx := 0, isPending := false },
       { msg := asst2, siblingLeafNodeIds := [2], siblingCurrIdx := 0, isPending := false }] := by
  decide

theorem nodeGet_map_of_id_eq {msgs : List Message} {f : Message → Message}
    (hf : ∀ m, (f m).id = m.id) (i : Int) :
    nodeGet (msgs.map f) i = (nodeGet msgs i).map f := by
  unfold nodeGet
  have hpred : ((fun m : Message => m.id == i) ∘ f) = (fun m : Message => m.id == i) := by
    funext m
    simp [Function.comp, hf]
  rw [← List.map_reverse, List.find?_map, hpred]

theorem nodeGet_append_single (msgs : List Message) (b : Message) (i : Int) :
    nodeGet (msgs ++ [b]) i = if b.id = i then some b else nodeGet msgs i := by
  unfold nodeGet
  rw [List.reverse_append]
  simp only [List.reverse_cons, List.reverse_nil, List.nil_append, List.singleton_append]
  by_cases hb : b.id = i
  · rw [List.find?_cons_of_pos _ (by simpa using hb), if_pos hb]
  · rw [List.find?_cons_of_neg _ (by simpa using hb), if_neg hb]

theorem appendedForest_nodeGet (msgs : List Message) (pid : Int) (n : Message) (i : Int) :
    nodeGet (appendedForest msgs pid n) i =
      if n.id = i then some { n with parent := some pid, children := [] }
      else (nodeGet msgs i).map
        (fun m => if m.id = pid then { m with children := m.children ++ [n.id] } else m) := by
  have hid : ∀ m : Message,
      ((fun m' => if m'.id = pid then { m' with children := m'.children ++ [n.id] } else m') m).id
        = m.id := by
    intro m
    by_cases h : m.id = pid <;> simp [h]
  unfold appendedForest
  rw [nodeGet_append_single, nodeGet_map_of_id_eq hid]

theorem appendedForest_mem {msgs : List Message} {pid : Int} (n : Message) {m : Message}
    (hm : m ∈ msgs) (hne : m.id ≠ pid) : m ∈ appendedForest msgs pid n := by
  unfold appendedForest
  refine List.mem_append_left _ ?_
  have h2 := List.mem_map_of_mem
    (fun m' => if m'.id = pid then { m' with children := m'.children ++ [n.id] } else m') hm
  simpa [hne] using h2

theorem appendNode_eq_some {msgs : List Message} {pid : Int} {P : Message}
    (hP : nodeGet msgs pid = some P) (n : Message) :
    appendNode msgs pid n = some (appendedForest msgs pid n) := by
  unfold appendNode
  rw [hP]

theorem appendNode_effect {msgs : List Message} {pid : Int} {P : Message}
    (hP : nodeGet msgs pid = some P) (n : Message) (hn : n.id ≠ pid) :
    ∃ msgs', appendNode msgs pid n = some msgs' ∧
      nodeGet msgs' pid = some { P with children := P.children ++ [n.id] } ∧
      nodeGet msgs' n.id = some { n with parent := some pid, children := [] } ∧
      (∀ m ∈ msgs, m.id ≠ pid → m ∈ msgs') ∧
      (∀ j, j ≠ pid → j ≠ n.id → nodeGet msgs' j = nodeGet msgs j) := by
  have hPid : P.id = pid := nodeGet_id hP
  refine ⟨appendedForest msgs pid n, appendNode_eq_some hP n, ?_, ?_, ?_, ?_⟩
  · rw [appendedForest_nodeGet, if_neg hn, hP, Option.map_some']
    rw [if_pos hPid]
  · rw [appendedForest_nodeGet, if_pos rfl]
  · intro m hm hm1
    exact appendedForest_mem n hm hm1
  · intro j hj1 hj2
    rw [appendedForest_nodeGet, if_neg (fun h => hj2 h.symm)]
    cases e : nodeGet msgs j with
    | none => rfl
    | some q =>
      have hq : q.id = j := nodeGet_id e
      rw [Option.map_some', if_neg (by rw [hq]; exact hj1)]

/-- C3: editing message M appends a new user sibling carrying the new content
under the parent of M (the follow-up assistant generation commits under that
new node), and regenerating M appends a new assistant sibling to the end of
the children of the parent of M; in both operations the original node M and
every other pre-existing non-parent node remain in the forest unmodified, the
existing children of the parent are preserved in order, and the natural leaf
of every old branch still occurs in the sibling leaf list computed over the
parent's children. -/
theorem replaceMessageAndGenerate_appends_sibling
    (msgs : List Message) (P M : Message) (pid : Int)
    (text streamed : String) (newId asstId : Int)
    (hP : nodeGet msgs pid = some P)
    (hM : M ∈ msgs) (_hMp : M.parent = some pid) (hMid : M.id ≠ pid)
    (hfresh : ∀ m ∈ msgs, m.id ≠ newId ∧ m.id ≠ asstId)
    (hpid1 : pid ≠ newId) (hpid2 : pid ≠ asstId) (hids : newId ≠ asstId) :
    (∃ msgsE, replaceMessageAndGenerate msgs pid (some text) newId asstId streamed = some msgsE ∧
      nodeGet msgsE pid = some { P with children := P.children ++ [newId] } ∧
      M ∈ msgsE ∧
      (∀ m ∈ msgs, m.id ≠ pid → m ∈ msgsE) ∧
      (∃ N, nodeGet msgsE newId = some N ∧ N.type = "user" ∧ N.content = some text ∧
        N.parent = some pid ∧ N.children = [asstId]) ∧
      (∀ c ∈ P.children, findLeafNode msgsE c ∈
        (P.children ++ [newId]).map (findLeafNode msgsE))) ∧
    (∃ msgsR, replaceMessageAndGenerate msgs pid none newId asstId streamed = some msgsR ∧
      nodeGet msgsR pid = some { P with children := P.children ++ [asstId] } ∧
      M ∈ msgsR ∧
      (∀ m ∈ msgs, m.id ≠ pid → m ∈ msgsR) ∧
      (∃ N, nodeGet msgsR asstId = some N ∧ N.type = "assistant" ∧
        N.content = some streamed ∧ N.parent = some pid ∧ N.children = []) ∧
      (∀ c ∈ P.children, findLeafNode msgsR c ∈
        (P.children ++ [asstId]).map (findLeafNode msgsR))) := by
  constructor
  · obtain ⟨msgs1, e1, g1parent, g1new, mem1, frame1⟩ :=
      appendNode_effect hP (mkUserNode newId text) (Ne.symm hpid1)
    obtain ⟨msgsE, e2, g2parent, g2new, mem2, frame2⟩ :=
      appendNode_effect g1new (mkAsstNode asstId streamed) (Ne.symm hids)
    refine ⟨msgsE, ?_, ?_, ?_, ?_, ?_, ?_⟩
    · show (appendNode msgs pid (mkUserNode newId text)).bind
        (fun ms => appendNode ms newId (mkAsstNode asstId streamed)) = some msgsE
      rw [e1]
      exact e2
    · exact (frame2 pid hpid1 hpid2).trans g1parent
    · exact mem2 M (mem1 M hM hMid) (hfresh M hM).1
    · exact fun m hm hmp => mem2 m (mem1 m hm hmp) (hfresh m hm).1
    · exact ⟨_, g2parent, rfl, rfl, rfl, rfl⟩
    · intro c hc
      exact List.mem_map_of_mem _ (List.mem_append_left _ hc)
  · obtain ⟨msgsR, er, grparent, grnew, rmem, rframe⟩ :=
      appendNode_effect hP (mkAsstNode asstId streamed) (Ne.symm hpid2)
    refine ⟨msgsR, ?_, ?_, ?_, ?_, ?_, ?_⟩
    · exact er
    · exact grparent
    · exact rmem M hM hMid
    · exact fun m hm hmp => rmem m hm hmp
    · exact ⟨_, grnew, rfl, rfl, rfl, rfl⟩
    · intro c hc
      exact List.mem_map_of_mem _ (List.mem_append_left _ hc)

/-- C3 witness: regenerating assistant#2 under user#1 in the scenario forest
appends the new assistant sibling 3, so `user#1.children = [2, 3]`, and the
original assistant#2 is still present unmodified. -/
theorem replaceMessageAndGenerate_appends_sibling_witness :
    nodeGet ((replaceMessageAndGenerate msgs0 1 none 4 3 "re").getD []) 1 =
      some { user1 with children := [2, 3] } ∧
    asst2 ∈ (replaceMessageAndGenerate msgs0 1 none 4 3 "re").getD [] := by
  obtain ⟨-, hR⟩ :=
    replaceMessageAndGenerate_appends_sibling msgs0 user1 asst2 1 "edited" "re" 4 3
      (by decide) (by decide) (by decide) (by decide) (by decide)
      (by decide) (by decide) (by decide)
  obtain ⟨msgsR, heq, hparent, hMmem, -, -, -⟩ := hR
  rw [heq]
  exact ⟨hparent, hMmem⟩

/-- C4: at most one Streaming assembler per conversation id. A second `start`
for a conversation id with an active stream is rejected with
AlreadyGenerating: the controller state is unchanged (no queuing, no
interleaving) and the user is notified; moreover `start` preserves the
one-assembler-per-conversation invariant (distinct keys) in every case. -/
theorem startGeneration_already_generating_rejected (st : CtrlState) (convId : String)
    (pendingId : Int) :
    (isGenerating st convId = true →
      (startGeneration st convId pendingId).st = st ∧
      (startGeneration st convId pendingId).result = StartResult.error GenError.AlreadyGenerating ∧
      (startGeneration st convId pendingId).notice.isSome = true) ∧
    (KeysNodup st → KeysNodup (startGeneration st convId pendingId).st) := by
  constructor
  · intro h
    simp [startGeneration, h]
  · intro hnd
    by_cases h : isGenerating st convId = true
    · simpa [startGeneration, h] using hnd
    · have hnone : (st.active.find? (fun e => e.1 == convId)) = none := by
        unfold isGenerating at h
        exact Option.not_isSome_iff_eq_none.mp h
      have hnotmem : convId ∉ st.active.map Prod.fst := by
        intro hmem
        obtain ⟨e, he, hfst⟩ := List.mem_map.mp hmem
        have hne := List.find?_eq_none.mp hnone e he
        simp [hfst] at hne
      simp only [startGeneration, if_neg h]
      unfold KeysNodup at hnd ⊢
      simp only [List.map_cons, List.nodup_cons]
      exact ⟨hnotmem, hnd⟩

/-- C4 witness: with an active stream for "conv1", a second start for "conv1"
is rejected with AlreadyGenerating, the state is unchanged, the user is
notified, and the invariant is preserved. -/
theorem startGeneration_already_generating_rejected_witness :
    (startGeneration ctrl1 "conv1" 8).st = ctrl1 ∧
    (startGeneration ctrl1 "conv1" 8).result = StartResult.error GenError.AlreadyGenerating ∧
    (startGeneration ctrl1 "conv1" 8).notice.isSome = true := by
  exact (startGeneration_already_generating_rejected ctrl1 "conv1" 8).1 (by decide)

/-- C5: cancelling an active stream commits the partially built pending
content as a real committed node. Generally, after any prefix of transport
events, ending the run with cancel produces exactly the store that ending it
with the success completion `done` would produce — cancellation is the
success path, a variant of commit, not a discard. In the concrete scenario,
cancelling after chunks "Hel" and "lo" commits node 3 with content "Hello"
(not an empty node) under user#1 and finishes in the Cancelled state, while
the transport-error path discards the pending node and leaves the store
untouched. -/
theorem cancel_commits_partial_content :
    (∀ (parentId : Int) (st : AsmRun) (evs : List StreamEvent),
      (runAsm parentId st (evs ++ [StreamEvent.cancelEv])).msgs =
        (runAsm parentId st (evs ++ [StreamEvent.done])).msgs) ∧
    (runAsm 1 run0 [StreamEvent.chunk "Hel", StreamEvent.chunk "lo",
        StreamEvent.cancelEv]).final = some FinalState.Cancelled ∧
    nodeGet (runAsm 1 run0 [StreamEvent.chunk "Hel", StreamEvent.chunk "lo",
        StreamEvent.cancelEv]).msgs 3 =
      some { id := 3, type := "assistant", content := some "Hello",
             parent := some 1, children := [] } ∧
    (some "Hello" : Option String) ≠ some "" ∧
    (runAsm 1 run0 [StreamEvent.chunk "Hel", StreamEvent.chunk "lo",
        StreamEvent.errorEv GenError.Aborted]).msgs = msgs0 ∧
    (runAsm 1 run0 [StreamEvent.chunk "Hel", StreamEvent.chunk "lo",
        StreamEvent.errorEv GenError.Aborted]).final =
      some (FinalState.Failed GenError.Aborted) := by
  refine ⟨?_, by decide, by decide, by decide, by decide, by decide⟩
  intro parentId st evs
  unfold runAsm
  rw [List.foldl_append, List.foldl_append]
  cases hf : (List.foldl (stepAsm parentId) st evs).final <;>
    simp [stepAsm, hf]

/-- C9: the pending message for the viewed conversation is appended to the
rendered list as exactly one extra entry with empty `siblingLeafNodeIds`,
`siblingCurrIdx` 0 and the pending flag set, exactly when the last committed
entry does not already carry the pending id; otherwise nothing is appended,
so — whenever the pending id can occur only as the last committed entry — the
pending node is never displayed twice. -/
theorem renderedMessages_pending_once (messages : List MessageDisplay) (pm : Message) :
    (pendingMsgDisplay messages none = [] ∧
     ((messages.getLast?).map (fun d => d.msg.id) = some pm.id →
        renderedMessages messages (some pm) = messages) ∧
     ((messages.getLast?).map (fun d => d.msg.id) ≠ some pm.id →
        renderedMessages messages (some pm) =
          messages ++ [{ msg := pm, siblingLeafNodeIds := [], siblingCurrIdx := 0,
                         isPending := true }])) ∧
    ((messages.map (fun d => d.msg.id)).count pm.id ≤ 1 →
      (pm.id ∈ messages.map (fun d => d.msg.id) →
        (messages.getLast?).map (fun d => d.msg.id) = some pm.id) →
      ((renderedMessages messages (some pm)).map (fun d => d.msg.id)).count pm.id ≤ 1) := by
  refine ⟨⟨rfl, ?_, ?_⟩, ?_⟩
  · intro heq
    simp [renderedMessages, pendingMsgDisplay, heq]
  · intro hne
    simp [renderedMessages, pendingMsgDisplay, hne]
  · intro hcount hlast
    by_cases heq : (messages.getLast?).map (fun d => d.msg.id) = some pm.id
    · simpa [renderedMessages, pendingMsgDisplay, heq] using hcount
    · have hnotmem : pm.id ∉ messages.map (fun d => d.msg.id) := fun hmem => heq (hlast hmem)
      have hzero : (messages.map (fun d => d.msg.id)).count pm.id = 0 :=
        List.count_eq_zero.mpr hnotmem
      simp [renderedMessages, pendingMsgDisplay, heq, List.count_append, hzero]

/-- C9 witness: with the scenario displays committed and a fresh pending
message 9, exactly one pending entry is appended and the rendered list shows
id 9 once. -/
theorem renderedMessages_pending_once_witness :
    renderedMessages msgsD0 (some pend9) =
      msgsD0 ++ [{ msg := pend9, siblingLeafNodeIds := [], siblingCurrIdx := 0,
                   isPending := true }] ∧
    ((renderedMessages msgsD0 (some pend9)).map (fun d => d.msg.id)).count pend9.id ≤ 1 := by
  refine ⟨((renderedMessages_pending_once msgsD0 pend9).1).2.2 (by decide),
    (renderedMessages_pending_once msgsD0 pend9).2 (by decide) (by decide)⟩

/-- C10: when the guard passes (non-blank trimmed draft, not generating),
`sendNewMessage` passes the typed draft together with the attachment items to
the external send, clears the draft for the duration of the send, restores it
to its prior value exactly when the send reports failure, and clears the
extra-context attachment items unconditionally after the attempt — also when
the send failed; no error toast is raised on this path. -/
theorem sendNewMessage_draft_restore_items_cleared (st : UiState) (generating sendOk : Bool)
    (hguard : ((jsTrim st.draftText).length == 0 || generating) = false) :
    (sendNewMessage st generating sendOk).sent = some (st.draftText, st.extraItems) ∧
    (sendNewMessage st generating sendOk).st.extraItems = [] ∧
    (sendOk = true → (sendNewMessage st generating sendOk).st.draftText = "") ∧
    (sendOk = false → (sendNewMessage st generating sendOk).st.draftText = st.draftText) ∧
    (sendNewMessage st generating sendOk).toastError = none := by
  cases sendOk <;> simp [sendNewMessage, hguard]

/-- C10 witness: a failed send of the draft "hello" restores the draft while
the attachment items are cleared anyway. -/
theorem sendNewMessage_draft_restore_items_cleared_witness :
    (sendNewMessage ui0 false false).sent = some ("hello", ["a.txt"]) ∧
    (sendNewMessage ui0 false false).st.extraItems = [] ∧
    (sendNewMessage ui0 false false).st.draftText = "hello" := by
  have h := sendNewMessage_draft_restore_items_cleared ui0 false false (by decide)
  exact ⟨h.1, h.2.1, h.2.2.2.1 rfl⟩
